import Mathlib

/-!
  Verification of the `tools/efrotools/util.py` helper module.

  The Python functions are shallowly embedded over `List Char` (Python `str`)
  and `List (List Char)` (Python `list[str]`).  Python's in-place mutation of
  the argument list is modelled by returning the final list state alongside
  the result; a raised exception is an `Except.error` carrying the exception
  class (messages are elided, since no property concerns message text).
-/

set_option maxHeartbeats 1000000
set_option linter.unusedVariables false

/-- The exception classes raised by the module: `efro.error.CleanError`,
`RuntimeError`, `ValueError` (from `str.split` on an empty separator) and
`TypeError`. -/
inductive PyErr where
  | cleanError
  | runtimeError
  | valueError
  | typeError
deriving DecidableEq

/-- Whether an `Except` value is an error (a raised exception). -/
def isErrorE {ε α : Type} : Except ε α → Bool
  | .error _ => true
  | .ok _ => false

instance {ε α : Type} [DecidableEq ε] [DecidableEq α] : DecidableEq (Except ε α) := fun x y =>
  match x, y with
  | .ok a, .ok b =>
    if h : a = b then .isTrue (by rw [h])
    else .isFalse (by intro hh; injection hh with h2; exact h h2)
  | .ok _, .error _ => .isFalse (by intro hh; cases hh)
  | .error _, .ok _ => .isFalse (by intro hh; cases hh)
  | .error e, .error f =>
    if h : e = f then .isTrue (by rw [h])
    else .isFalse (by intro hh; injection hh with h2; exact h h2)

/-- Abbreviation turning a Lean string literal into the `List Char` model of a
Python `str`. -/
def str (s : String) : List Char := s.toList

/-- Embedding of `extract_flag(args, name)`.

Python source:
```
count = args.count(name)
if count > 1:
    raise CleanError(...)
if not count:
    return False
args.remove(name)
return True
```
`list.remove` removes the first matching element (`List.erase`).  The second
component of the result is the final state of the caller's `args` list. -/
def extract_flag (args : List (List Char)) (name : List Char) :
    Except PyErr Bool × List (List Char) :=
  if 1 < args.count name then (.error .cleanError, args)
  else if args.count name = 0 then (.ok false, args)
  else (.ok true, args.erase name)

/-- Embedding of `extract_arg(args, name, required)`.

Python source:
```
count = args.count(name)
if not count:
    if required:
        raise CleanError(...)
    return None
if count > 1:
    raise CleanError(...)
argindex = args.index(name)
if argindex + 1 >= len(args):
    raise CleanError(...)
val = args[argindex + 1]
del args[argindex : argindex + 2]
return val
```
`args.index` is `List.indexOf` (index of the first occurrence) and the slice
deletion is `take argindex ++ drop (argindex + 2)`. -/
def extract_arg (args : List (List Char)) (name : List Char) (required : Bool) :
    Except PyErr (Option (List Char)) × List (List Char) :=
  if args.count name = 0 then
    if required then (.error .cleanError, args) else (.ok none, args)
  else if 1 < args.count name then (.error .cleanError, args)
  else if args.length ≤ args.indexOf name + 1 then (.error .cleanError, args)
  else (.ok (some (args.getD (args.indexOf name + 1) [])),
        args.take (args.indexOf name) ++ args.drop (args.indexOf name + 2))

section ExtractLemmas

/-- `List.indexOf` finds the head of the explicit occurrence when nothing
before it matches. -/
theorem indexOf_append_cons_self (pre : List (List Char)) (name : List Char)
    (l : List (List Char)) (h : pre.count name = 0) :
    (pre ++ name :: l).indexOf name = pre.length := by
  induction pre with
  | nil => simp [List.indexOf, List.findIdx_cons]
  | cons x xs ih =>
    have hx : x ≠ name := by
      intro hxx; subst hxx; simp [List.count_cons] at h
    have hxs : xs.count name = 0 := by
      rw [List.count_cons] at h; omega
    have hbeq : (x == name) = false := beq_eq_false_iff_ne.mpr hx
    simp only [List.cons_append, List.indexOf, List.findIdx_cons, hbeq, cond_false,
      List.length_cons] at ih ⊢
    omega

theorem getD_append_cons_succ (pre : List (List Char)) (a v : List Char)
    (post : List (List Char)) :
    (pre ++ a :: v :: post).getD (pre.length + 1) [] = v := by
  induction pre with
  | nil => rfl
  | cons x xs ih =>
    simp only [List.cons_append, List.length_cons, List.getD_cons_succ]
    exact ih

/-- Core success behaviour of `extract_arg`: when `name` occurs exactly once,
followed by a value, the value is returned and exactly the flag/value pair is
deleted. -/
theorem extract_arg_found (pre post : List (List Char)) (name v : List Char) (req : Bool)
    (hpre : pre.count name = 0) (hv : v ≠ name) (hpost : post.count name = 0) :
    extract_arg (pre ++ name :: v :: post) name req = (.ok (some v), pre ++ post) := by
  have hvbeq : (v == name) = false := beq_eq_false_iff_ne.mpr hv
  have hcount : (pre ++ name :: v :: post).count name = 1 := by
    simp [List.count_append, List.count_cons, hpre, hpost, hvbeq]
  have hidx : (pre ++ name :: v :: post).indexOf name = pre.length :=
    indexOf_append_cons_self pre name (v :: post) hpre
  have hlen : ¬ (pre ++ name :: v :: post).length ≤ pre.length + 1 := by
    simp [List.length_append]
  have hget : (pre ++ name :: v :: post).getD (pre.length + 1) [] = v :=
    getD_append_cons_succ pre name v post
  have htake : (pre ++ name :: v :: post).take pre.length = pre := by
    exact List.take_left pre (name :: v :: post)
  have hdrop : (pre ++ name :: v :: post).drop (pre.length + 2) = post := by
    have h2 : pre ++ name :: v :: post = (pre ++ [name, v]) ++ post := by simp
    have h3 : (pre ++ [name, v]).length = pre.length + 2 := by simp
    rw [h2, ← h3, List.drop_left]
  rw [extract_arg, if_neg (by rw [hcount]; norm_num), if_neg (by rw [hcount]; norm_num),
    hidx, if_neg hlen, hget, htake]
  rw [show pre.length + 2 = pre.length + 2 from rfl, hdrop]

end ExtractLemmas

/-! ### Claims about the extraction functions (C1, C7, C10) -/

/-- C1 (counterexample). The round-trip claim quantifies over *every* argument
list: but inserting `["a", "a"]` (name `"a"`, value `"a"`) into the empty list
gives `["a", "a"]`, in which the name occurs twice, so `extract_arg` raises
`CleanError` instead of returning the value and restoring the empty list. -/
theorem extract_arg_insert_roundtrip_cex :
    extract_arg [str "a", str "a"] (str "a") false = (.error .cleanError, [str "a", str "a"])
    ∧ extract_arg [str "a", str "a"] (str "a") false
        ≠ (.ok (some (str "a")), ([] : List (List Char))) := by
  constructor
  · rfl
  · decide

/-- C1 (amended). For every argument list in which `name` does not occur, and
every value different from `name`, inserting the two elements `[name, value]`
at any position `i` and then calling `extract_arg args name` returns `value`
and leaves the list equal to the original list. -/
theorem extract_arg_insert_roundtrip (orig : List (List Char)) (i : Nat)
    (name value : List Char) (req : Bool)
    (hname : orig.count name = 0) (hval : value ≠ name) :
    extract_arg (orig.take i ++ name :: value :: orig.drop i) name req
      = (.ok (some value), orig) := by
  have hsplit : orig.take i ++ orig.drop i = orig := List.take_append_drop i orig
  have hcounts : (orig.take i).count name = 0 ∧ (orig.drop i).count name = 0 := by
    have := List.count_append name (orig.take i) (orig.drop i)
    rw [hsplit] at this
    omega
  have h := extract_arg_found (orig.take i) (orig.drop i) name value req
    hcounts.1 hval hcounts.2
  rw [h, hsplit]

/-- C1 witness: inserting `["--speed", "9"]` into `["run", "fast"]` at
position 1 extracts `"9"` and restores the original list. -/
theorem extract_arg_insert_roundtrip_witness :
    extract_arg [str "run", str "--speed", str "9", str "fast"] (str "--speed") false
      = (.ok (some (str "9")), [str "run", str "fast"]) := by
  have h := extract_arg_insert_roundtrip [str "run", str "fast"] 1
    (str "--speed") (str "9") false (by decide) (by decide)
  exact h

/-- C7. The full `extract_arg` contract: raises `CleanError` when `name`
appears more than once; when absent raises iff `required`; when present
exactly once as the last element raises; when present exactly once with a
following element, returns that element and removes exactly the pair. -/
theorem extract_arg_contract (args : List (List Char)) (name : List Char) (req : Bool) :
    (1 < args.count name → extract_arg args name req = (.error .cleanError, args))
    ∧ (args.count name = 0 → req = true →
        extract_arg args name req = (.error .cleanError, args))
    ∧ (args.count name = 0 → req = false → extract_arg args name req = (.ok none, args))
    ∧ (∀ pre, pre.count name = 0 → args = pre ++ [name] →
        extract_arg args name req = (.error .cleanError, args))
    ∧ (∀ pre v post, pre.count name = 0 → v ≠ name → post.count name = 0 →
        args = pre ++ name :: v :: post →
        extract_arg args name req = (.ok (some v), pre ++ post)) := by
  refine ⟨?_, ?_, ?_, ?_, ?_⟩
  · intro h
    rw [extract_arg, if_neg (by omega), if_pos h]
  · intro h hreq
    subst hreq
    rw [extract_arg, if_pos h, if_pos rfl]
  · intro h hreq
    subst hreq
    rw [extract_arg, if_pos h]
    rfl
  · intro pre hpre hargs
    subst hargs
    have hcount : (pre ++ [name]).count name = 1 := by
      simp [List.count_append, hpre]
    have hidx : (pre ++ [name]).indexOf name = pre.length :=
      indexOf_append_cons_self pre name [] hpre
    have hlen : (pre ++ [name]).length ≤ pre.length + 1 := by simp
    rw [extract_arg, if_neg (by omega), if_neg (by omega), hidx, if_pos hlen]
  · intro pre v post hpre hv hpost hargs
    subst hargs
    exact extract_arg_found pre post name v req hpre hv hpost

/-- C7 witness: each clause of the contract at a concrete input. -/
theorem extract_arg_contract_witness :
    (extract_arg [str "-v", str "-v"] (str "-v") false
      = (.error .cleanError, [str "-v", str "-v"]))
    ∧ (extract_arg [str "x"] (str "-v") true = (.error .cleanError, [str "x"]))
    ∧ (extract_arg [str "x"] (str "-v") false = (.ok none, [str "x"]))
    ∧ (extract_arg [str "x", str "-v"] (str "-v") false
      = (.error .cleanError, [str "x", str "-v"]))
    ∧ (extract_arg [str "x", str "-v", str "7", str "y"] (str "-v") false
      = (.ok (some (str "7")), [str "x", str "y"])) := by
  refine ⟨?_, ?_, ?_, ?_, ?_⟩
  · exact (extract_arg_contract [str "-v", str "-v"] (str "-v") false).1 (by decide)
  · exact (extract_arg_contract [str "x"] (str "-v") true).2.1 (by decide) rfl
  · exact (extract_arg_contract [str "x"] (str "-v") false).2.2.1 (by decide) rfl
  · exact (extract_arg_contract [str "x", str "-v"] (str "-v") false).2.2.2.1
      [str "x"] (by decide) (by decide)
  · exact (extract_arg_contract [str "x", str "-v", str "7", str "y"] (str "-v")
      false).2.2.2.2 [str "x"] (str "7") [str "y"] (by decide) (by decide) (by decide)
      (by decide)

/-- C10. Atomicity: whenever `extract_flag` or `extract_arg` raises, the
caller's `args` list is exactly as it was before the call (every `raise` in
the source happens before the mutation). -/
theorem extract_atomicity (args : List (List Char)) (name : List Char) (req : Bool) :
    (isErrorE (extract_flag args name).1 = true → (extract_flag args name).2 = args)
    ∧ (isErrorE (extract_arg args name req).1 = true → (extract_arg args name req).2 = args) := by
  constructor
  · intro h
    by_cases h1 : 1 < args.count name
    · rw [extract_flag, if_pos h1]
    · by_cases h2 : args.count name = 0
      · rw [extract_flag, if_neg h1, if_pos h2]
      · exfalso
        rw [extract_flag, if_neg h1, if_neg h2] at h
        simp [isErrorE] at h
  · intro h
    by_cases h1 : args.count name = 0
    · rw [extract_arg, if_pos h1]
      split <;> rfl
    · by_cases h2 : 1 < args.count name
      · rw [extract_arg, if_neg h1, if_pos h2]
      · by_cases h3 : args.length ≤ args.indexOf name + 1
        · rw [extract_arg, if_neg h1, if_neg h2, if_pos h3]
        · exfalso
          rw [extract_arg, if_neg h1, if_neg h2, if_neg h3] at h
          simp [isErrorE] at h

/-- C10 witness: on the duplicated flag `["a", "a"]` both functions raise and
the returned list state equals the input. -/
theorem extract_atomicity_witness :
    (extract_flag [str "a", str "a"] (str "a")).2 = [str "a", str "a"]
    ∧ (extract_arg [str "a", str "a"] (str "a") true).2 = [str "a", str "a"] := by
  constructor
  · exact (extract_atomicity [str "a", str "a"] (str "a") true).1 (by decide)
  · exact (extract_atomicity [str "a", str "a"] (str "a") true).2 (by decide)

/-! ### Python string-scan primitives -/

/-- Python's `sub in s` (substring containment); `"" in s` is `True`. -/
def isSubstring (sub : List Char) : List Char → Bool
  | [] => sub.isEmpty
  | s@(_ :: rest) => sub.isPrefixOf s || isSubstring sub rest

/-- The number of positions at which `sub` occurs in `s`, i.e. the number of
decompositions `s = x ++ sub ++ y` (occurrences may overlap). -/
def occCount (sub : List Char) : List Char → Nat
  | [] => if sub.isEmpty then 1 else 0
  | s@(_ :: rest) => (if sub.isPrefixOf s then 1 else 0) + occCount sub rest

/-- Python's `s.count(sub)` for nonempty `sub`: occurrences found by a
left-to-right scan that restarts after the end of each match
(non-overlapping). -/
def pyCountNe (sub : List Char) (s : List Char) : Nat :=
  match s with
  | [] => 0
  | c :: rest =>
    if h : sub ≠ [] ∧ sub.isPrefixOf (c :: rest) then
      1 + pyCountNe sub ((c :: rest).drop sub.length)
    else pyCountNe sub rest
termination_by s.length
decreasing_by
· have hl : 0 < sub.length := List.length_pos.mpr h.1
  simp only [List.length_drop, List.length_cons]
  omega
· simp only [List.length_cons]
  omega

/-- Python's `s.count(sub)`; for the empty `sub` it is `len(s) + 1`. -/
def pyCount (sub s : List Char) : Nat :=
  if sub = [] then s.length + 1 else pyCountNe sub s

/-- Python's `s.split(sep)` for a nonempty separator: cut `s` at each match
of the left-to-right non-overlapping scan.  (For `sep = []` Python raises;
callers model that case separately, and this function never splits then.) -/
def pySplit (sep : List Char) (s : List Char) : List (List Char) :=
  match s with
  | [] => [[]]
  | c :: rest =>
    if h : sep ≠ [] ∧ sep.isPrefixOf (c :: rest) then
      [] :: pySplit sep ((c :: rest).drop sep.length)
    else
      match pySplit sep rest with
      | [] => [[c]]
      | chunk :: more => (c :: chunk) :: more
termination_by s.length
decreasing_by
· have hl : 0 < sep.length := List.length_pos.mpr h.1
  simp only [List.length_drop, List.length_cons]
  omega
· simp only [List.length_cons]
  omega

/-- Joins a list of chunks with `sep` between consecutive chunks
(what joining with `sep` means in Python); inverse of `pySplit`. -/
def joinSep (sep : List Char) : List (List Char) → List Char
  | [] => []
  | [x] => x
  | x :: xs => x ++ sep ++ joinSep sep xs

/-- Python's `s.replace(old, new)` for nonempty `old`: every occurrence found
by the non-overlapping left-to-right scan is replaced. -/
def pyReplaceNe (old new : List Char) (s : List Char) : List Char :=
  match s with
  | [] => []
  | c :: rest =>
    if h : old ≠ [] ∧ old.isPrefixOf (c :: rest) then
      new ++ pyReplaceNe old new ((c :: rest).drop old.length)
    else c :: pyReplaceNe old new rest
termination_by s.length
decreasing_by
· have hl : 0 < old.length := List.length_pos.mpr h.1
  simp only [List.length_drop, List.length_cons]
  omega
· simp only [List.length_cons]
  omega

/-- Python's `s.replace("", new)`: `new` is inserted at every position. -/
def pyReplaceEmpty (new : List Char) : List Char → List Char
  | [] => new
  | c :: rest => new ++ c :: pyReplaceEmpty new rest

/-- Python's `s.replace(old, new)` (all occurrences replaced). -/
def pyReplace (s old new : List Char) : List Char :=
  if old = [] then pyReplaceEmpty new s else pyReplaceNe old new s

/-! ### Embeddings of the text-replacement functions -/

/-- Embedding of `replace_section(text, begin_marker, end_marker,
replace_text, keep_markers, error_if_missing)`.

Python source:
```
if begin_marker not in text:
    if error_if_missing:
        raise RuntimeError(...)
    return text
splits = text.split(begin_marker)
if len(splits) != 2:
    raise RuntimeError(...)
before_begin, after_begin = splits
splits = after_begin.split(end_marker)
if len(splits) != 2:
    raise RuntimeError(...)
_before_end, after_end = splits
if keep_markers:
    replace_text = f'{begin_marker}{replace_text}{end_marker}'
return f'{before_begin}{replace_text}{after_end}'
```
`str.split` raises `ValueError` on an empty separator; the explicit emptiness
tests model that (they sit exactly where the Python `split` calls run). -/
def replace_section (text begin_marker end_marker replace_text : List Char)
    (keep_markers : Bool) (error_if_missing : Bool) : Except PyErr (List Char) :=
  if isSubstring begin_marker text = false then
    if error_if_missing then .error .runtimeError else .ok text
  else if begin_marker = [] then .error .valueError
  else
    match pySplit begin_marker text with
    | [before_begin, after_begin] =>
      if end_marker = [] then .error .valueError
      else
        match pySplit end_marker after_begin with
        | [_before_end, after_end] =>
          .ok (before_begin
            ++ (if keep_markers then begin_marker ++ replace_text ++ end_marker
                else replace_text)
            ++ after_end)
        | _ => .error .runtimeError
    | _ => .error .runtimeError

/-- Embedding of `replace_exact(opstr, old, new, count, label)`.

Python source:
```
found = opstr.count(old)
if found != count:
    raise RuntimeError(...)
return opstr.replace(old, new)
```
(`label` only affects the elided message text.) -/
def replace_exact (opstr old new : List Char) (count : Nat) : Except PyErr (List Char) :=
  if pyCount old opstr ≠ count then .error .runtimeError
  else .ok (pyReplace opstr old new)

/-! ### Lemmas about the scan primitives -/

theorem isPrefixOf_append_drop : ∀ {p s : List Char},
    p.isPrefixOf s = true → p ++ s.drop p.length = s := by
  intro p
  induction p with
  | nil => intro s h; simp
  | cons a ps ih =>
    intro s h
    cases s with
    | nil => simp [List.isPrefixOf] at h
    | cons b t =>
      simp only [List.isPrefixOf, Bool.and_eq_true, beq_iff_eq] at h
      obtain ⟨hab, hpt⟩ := h
      subst hab
      simp only [List.length_cons, List.drop_succ_cons, List.cons_append]
      rw [ih hpt]

theorem isPrefixOf_append_self : ∀ (p t : List Char), p.isPrefixOf (p ++ t) = true := by
  intro p t
  induction p with
  | nil => cases t <;> simp [List.isPrefixOf]
  | cons a ps ih => simp [List.isPrefixOf, ih]

theorem isSubstring_nil_left : ∀ s : List Char, isSubstring [] s = true := by
  intro s
  cases s <;> simp [isSubstring, List.isPrefixOf]

theorem isSubstring_of_prefix {sub s : List Char} (h : sub.isPrefixOf s = true) :
    isSubstring sub s = true := by
  cases s with
  | nil =>
    cases sub with
    | nil => rfl
    | cons a as => simp [List.isPrefixOf] at h
  | cons c rest => simp [isSubstring, h]

theorem occCount_pos_of_prefix {sub s : List Char} (h : sub.isPrefixOf s = true) :
    1 ≤ occCount sub s := by
  cases s with
  | nil =>
    cases sub with
    | nil => simp [occCount]
    | cons a as => simp [List.isPrefixOf] at h
  | cons c rest =>
    simp only [occCount, h, if_pos]
    omega

theorem occCount_append_pos (sep r : List Char) :
    ∀ b, 1 ≤ occCount sep (b ++ (sep ++ r)) := by
  intro b
  induction b with
  | nil =>
    simp only [List.nil_append]
    exact occCount_pos_of_prefix (isPrefixOf_append_self sep r)
  | cons c b' ih =>
    simp only [List.cons_append]
    rw [occCount]
    split <;> omega

theorem occCount_drop_le (sub : List Char) :
    ∀ (s : List Char) (k : Nat), occCount sub (s.drop k) ≤ occCount sub s := by
  intro s
  induction s with
  | nil => intro k; simp
  | cons c rest ih =>
    intro k
    cases k with
    | zero => simp
    | succ n =>
      simp only [List.drop_succ_cons]
      have h1 := ih n
      have h2 : occCount sub rest ≤ occCount sub (c :: rest) := by
        rw [occCount]
        split <;> omega
      omega

theorem isSubstring_append_mid (sub r : List Char) :
    ∀ b, isSubstring sub (b ++ (sub ++ r)) = true := by
  intro b
  induction b with
  | nil =>
    simp only [List.nil_append]
    exact isSubstring_of_prefix (isPrefixOf_append_self sub r)
  | cons c b' ih =>
    simp only [List.cons_append]
    rw [isSubstring]
    simp [ih]

theorem pySplit_ne_nil (sep : List Char) : ∀ s, pySplit sep s ≠ [] := by
  intro s
  cases s with
  | nil => rw [pySplit]; simp
  | cons c rest =>
    rw [pySplit]
    split
    · simp
    · split <;> simp

theorem pySplit_nil_sep : ∀ s : List Char, pySplit [] s = [s] := by
  intro s
  induction s with
  | nil => rw [pySplit]
  | cons c rest ih =>
    rw [pySplit, dif_neg (by simp), ih]

theorem pySplit_length_fuel (sep : List Char) (hsep : sep ≠ []) :
    ∀ n s, List.length s ≤ n → (pySplit sep s).length = pyCountNe sep s + 1 := by
  intro n
  induction n with
  | zero =>
    intro s hs
    have hnil : s = [] := List.eq_nil_of_length_eq_zero (Nat.le_zero.mp hs)
    subst hnil
    rw [pySplit, pyCountNe]
    rfl
  | succ n ih =>
    intro s hs
    cases s with
    | nil => rw [pySplit, pyCountNe]; rfl
    | cons c rest =>
      rw [pySplit, pyCountNe]
      by_cases h : sep ≠ [] ∧ sep.isPrefixOf (c :: rest)
      · rw [dif_pos h, dif_pos h]
        have hl : 0 < sep.length := List.length_pos.mpr h.1
        have ht : ((c :: rest).drop sep.length).length ≤ n := by
          simp only [List.length_drop, List.length_cons]
          simp only [List.length_cons] at hs
          omega
        simp only [List.length_cons]
        rw [ih _ ht]
        omega
      · rw [dif_neg h, dif_neg h]
        have hrest : rest.length ≤ n := by
          simp only [List.length_cons] at hs
          omega
        obtain ⟨chunk, more, hcm⟩ := List.exists_cons_of_ne_nil (pySplit_ne_nil sep rest)
        have hlen := ih rest hrest
        rw [hcm] at hlen ⊢
        simp only [List.length_cons] at hlen ⊢
        omega

/-- `len(s.split(sep)) = s.count(sep) + 1` for a nonempty separator. -/
theorem pySplit_length (sep s : List Char) (hsep : sep ≠ []) :
    (pySplit sep s).length = pyCountNe sep s + 1 :=
  pySplit_length_fuel sep hsep s.length s le_rfl

theorem joinSep_cons_head (sep : List Char) (c : Char) (chunk : List Char) :
    ∀ more, joinSep sep ((c :: chunk) :: more) = c :: joinSep sep (chunk :: more) := by
  intro more
  cases more with
  | nil => rfl
  | cons y ys => simp [joinSep, List.cons_append]

theorem joinSep_pySplit_fuel (sep : List Char) :
    ∀ n s, List.length s ≤ n → joinSep sep (pySplit sep s) = s := by
  intro n
  induction n with
  | zero =>
    intro s hs
    have hnil : s = [] := List.eq_nil_of_length_eq_zero (Nat.le_zero.mp hs)
    subst hnil
    rw [pySplit]
    rfl
  | succ n ih =>
    intro s hs
    cases s with
    | nil => rw [pySplit]; rfl
    | cons c rest =>
      rw [pySplit]
      by_cases h : sep ≠ [] ∧ sep.isPrefixOf (c :: rest)
      · rw [dif_pos h]
        have hl : 0 < sep.length := List.length_pos.mpr h.1
        have ht : ((c :: rest).drop sep.length).length ≤ n := by
          simp only [List.length_drop, List.length_cons]
          simp only [List.length_cons] at hs
          omega
        obtain ⟨y, ys, hys⟩ :=
          List.exists_cons_of_ne_nil (pySplit_ne_nil sep ((c :: rest).drop sep.length))
        have hjoin := ih _ ht
        rw [hys] at hjoin ⊢
        rw [show joinSep sep ([] :: y :: ys) = sep ++ joinSep sep (y :: ys) by
          simp [joinSep]]
        rw [hjoin]
        exact isPrefixOf_append_drop h.2
      · rw [dif_neg h]
        have hrest : rest.length ≤ n := by
          simp only [List.length_cons] at hs
          omega
        obtain ⟨chunk, more, hcm⟩ := List.exists_cons_of_ne_nil (pySplit_ne_nil sep rest)
        have hjoin := ih rest hrest
        rw [hcm] at hjoin ⊢
        rw [joinSep_cons_head, hjoin]

/-- Joining the chunks of `pySplit` with the separator restores the string. -/
theorem joinSep_pySplit (sep s : List Char) : joinSep sep (pySplit sep s) = s :=
  joinSep_pySplit_fuel sep s.length s le_rfl

theorem pyReplaceNe_join_fuel (old new : List Char) :
    ∀ n s, List.length s ≤ n → pyReplaceNe old new s = joinSep new (pySplit old s) := by
  intro n
  induction n with
  | zero =>
    intro s hs
    have hnil : s = [] := List.eq_nil_of_length_eq_zero (Nat.le_zero.mp hs)
    subst hnil
    rw [pyReplaceNe, pySplit]
    rfl
  | succ n ih =>
    intro s hs
    cases s with
    | nil => rw [pyReplaceNe, pySplit]; rfl
    | cons c rest =>
      rw [pyReplaceNe, pySplit]
      by_cases h : old ≠ [] ∧ old.isPrefixOf (c :: rest)
      · rw [dif_pos h, dif_pos h]
        have hl : 0 < old.length := List.length_pos.mpr h.1
        have ht : ((c :: rest).drop old.length).length ≤ n := by
          simp only [List.length_drop, List.length_cons]
          simp only [List.length_cons] at hs
          omega
        obtain ⟨y, ys, hys⟩ :=
          List.exists_cons_of_ne_nil (pySplit_ne_nil old ((c :: rest).drop old.length))
        have hrec := ih _ ht
        rw [hys] at hrec ⊢
        rw [hrec]
        rw [show joinSep new ([] :: y :: ys) = new ++ joinSep new (y :: ys) by
          simp [joinSep]]
      · rw [dif_neg h, dif_neg h]
        have hrest : rest.length ≤ n := by
          simp only [List.length_cons] at hs
          omega
        obtain ⟨chunk, more, hcm⟩ := List.exists_cons_of_ne_nil (pySplit_ne_nil old rest)
        have hrec := ih rest hrest
        rw [hcm] at hrec ⊢
        rw [hrec, joinSep_cons_head]

/-- For nonempty `old`, Python's `replace` joins the `split` chunks with
`new`. -/
theorem pyReplaceNe_join (old new s : List Char) :
    pyReplaceNe old new s = joinSep new (pySplit old s) :=
  pyReplaceNe_join_fuel old new s.length s le_rfl

/-- If `sep` occurs nowhere in `s`, `pySplit` does not cut. -/
theorem pySplit_no_occ (sep : List Char) (hsep : sep ≠ []) :
    ∀ s, occCount sep s = 0 → pySplit sep s = [s] := by
  intro s
  induction s with
  | nil => intro h; rw [pySplit]
  | cons c rest ih =>
    intro h
    rw [occCount] at h
    by_cases hp : sep.isPrefixOf (c :: rest) = true
    · rw [if_pos hp] at h
      omega
    · rw [if_neg hp] at h
      rw [pySplit, dif_neg (fun hab => hp hab.2), ih (by omega)]

/-- If `sep` occurs at exactly one position in `b ++ sep ++ r`, `pySplit`
cuts exactly there. -/
theorem pySplit_single_occ (sep r : List Char) (hsep : sep ≠ []) :
    ∀ b, occCount sep (b ++ (sep ++ r)) = 1 →
      pySplit sep (b ++ (sep ++ r)) = [b, r] := by
  intro b
  induction b with
  | nil =>
    intro h1
    simp only [List.nil_append] at h1 ⊢
    obtain ⟨a, sep', hsep'⟩ := List.exists_cons_of_ne_nil hsep
    subst hsep'
    rw [List.cons_append] at h1 ⊢
    have hpre : (a :: sep').isPrefixOf (a :: (sep' ++ r)) = true := by
      have h2 := isPrefixOf_append_self (a :: sep') r
      rwa [List.cons_append] at h2
    rw [pySplit, dif_pos ⟨hsep, hpre⟩]
    have hdrop : (a :: (sep' ++ r)).drop ((a :: sep').length) = r := by
      have h2 : ((a :: sep') ++ r).drop ((a :: sep').length) = r := List.drop_left _ _
      rwa [List.cons_append] at h2
    rw [hdrop]
    have hocc : occCount (a :: sep') r = 0 := by
      rw [occCount, if_pos hpre] at h1
      have h2 : occCount (a :: sep') (sep' ++ r) = 0 := by omega
      have h3 : occCount (a :: sep') ((sep' ++ r).drop sep'.length)
          ≤ occCount (a :: sep') (sep' ++ r) := occCount_drop_le _ _ _
      rw [List.drop_left] at h3
      omega
    rw [pySplit_no_occ _ hsep r hocc]
  | cons c b' ih =>
    intro h1
    simp only [List.cons_append] at h1 ⊢
    have hpos : 1 ≤ occCount sep (b' ++ (sep ++ r)) := occCount_append_pos sep r b'
    rw [occCount] at h1
    have hp : ¬ (sep.isPrefixOf (c :: (b' ++ (sep ++ r))) = true) := by
      intro hc
      rw [if_pos hc] at h1
      omega
    rw [if_neg hp] at h1
    rw [pySplit, dif_neg (fun hab => hp hab.2), ih (by omega)]

theorem isSubstring_of_pyCountNe_pos (sep : List Char) (hsep : sep ≠ []) :
    ∀ s, 1 ≤ pyCountNe sep s → isSubstring sep s = true := by
  intro s
  induction s with
  | nil => intro h; rw [pyCountNe] at h; omega
  | cons c rest ih =>
    intro h
    rw [pyCountNe] at h
    by_cases hp : sep ≠ [] ∧ sep.isPrefixOf (c :: rest)
    · rw [isSubstring]
      simp [hp.2]
    · rw [dif_neg hp] at h
      rw [isSubstring]
      simp [ih h]

/-! ### Claims about `replace_section` (C4, C5) -/

/-- C4. For every text in which `begin_marker` occurs at exactly one position
and `end_marker` occurs at exactly one position in the region after
`begin_marker` (markers nonempty, which is what an occurrence of a marker
presupposes — Python's `split` raises on an empty separator), the result
replaces everything from `begin_marker` through `end_marker` (inclusive) by
`replace_text`; with `keep_markers` the markers are preserved around
`replace_text`. -/
theorem replace_section_replaces_block
    (b m e begin_marker end_marker replace_text : List Char) (err : Bool)
    (hb : begin_marker ≠ []) (he : end_marker ≠ [])
    (h1 : occCount begin_marker (b ++ (begin_marker ++ (m ++ (end_marker ++ e)))) = 1)
    (h2 : occCount end_marker (m ++ (end_marker ++ e)) = 1) :
    replace_section (b ++ (begin_marker ++ (m ++ (end_marker ++ e))))
        begin_marker end_marker replace_text false err
      = .ok (b ++ (replace_text ++ e))
    ∧ replace_section (b ++ (begin_marker ++ (m ++ (end_marker ++ e))))
        begin_marker end_marker replace_text true err
      = .ok (b ++ (begin_marker ++ (replace_text ++ (end_marker ++ e)))) := by
  have hsub : isSubstring begin_marker
      (b ++ (begin_marker ++ (m ++ (end_marker ++ e)))) = true :=
    isSubstring_append_mid begin_marker (m ++ (end_marker ++ e)) b
  have hsp1 : pySplit begin_marker (b ++ (begin_marker ++ (m ++ (end_marker ++ e))))
      = [b, m ++ (end_marker ++ e)] :=
    pySplit_single_occ begin_marker (m ++ (end_marker ++ e)) hb b h1
  have hsp2 : pySplit end_marker (m ++ (end_marker ++ e)) = [m, e] :=
    pySplit_single_occ end_marker e he m h2
  constructor
  · rw [replace_section, hsub]
    rw [if_neg (by simp), if_neg hb, hsp1]
    simp [hsp2, he]
  · rw [replace_section, hsub]
    rw [if_neg (by simp), if_neg hb, hsp1]
    simp [hsp2, he]

/-- C4 witness: `replace_section("[START]middle[END]", "[START]", "[END]",
"X")` is `"X"`, and `"[START]X[END]"` with `keep_markers=True`. -/
theorem replace_section_replaces_block_witness :
    replace_section (str "[START]middle[END]") (str "[START]") (str "[END]") (str "X")
        false true = .ok (str "X")
    ∧ replace_section (str "[START]middle[END]") (str "[START]") (str "[END]") (str "X")
        true true = .ok (str "[START]X[END]") := by
  have h := replace_section_replaces_block [] (str "middle") [] (str "[START]")
    (str "[END]") (str "X") true (by decide) (by decide) (by decide) (by decide)
  have htext : ([] : List Char) ++ (str "[START]" ++ (str "middle" ++ (str "[END]" ++ [])))
      = str "[START]middle[END]" := by decide
  constructor
  · have h1 := h.1
    rw [htext] at h1
    rw [h1]
    decide
  · have h2 := h.2
    rw [htext] at h2
    rw [h2]
    decide

/-- C5. Failure behaviour of `replace_section`: raises `RuntimeError` when
`begin_marker` is absent and `error_if_missing` is true; returns the text
unchanged when absent and `error_if_missing` is false; raises whenever the
scan count of `begin_marker` in the whole text is two or more (a count of
zero is the absence case above); and raises whenever the scan count of
`end_marker` in the region `r` after `begin_marker` (the second chunk the
code's own split produces) differs from one. -/
theorem replace_section_failure_modes
    (text begin_marker end_marker replace_text : List Char) (keep : Bool) :
    (isSubstring begin_marker text = false →
      replace_section text begin_marker end_marker replace_text keep true
        = .error .runtimeError)
    ∧ (isSubstring begin_marker text = false →
      replace_section text begin_marker end_marker replace_text keep false = .ok text)
    ∧ (∀ err, 2 ≤ pyCount begin_marker text →
      isErrorE (replace_section text begin_marker end_marker replace_text keep err) = true)
    ∧ (∀ err b r, pySplit begin_marker text = [b, r] → pyCount end_marker r ≠ 1 →
      isErrorE (replace_section text begin_marker end_marker replace_text keep err) = true) := by
  refine ⟨?_, ?_, ?_, ?_⟩
  · intro h
    rw [replace_section, h, if_pos rfl]
    rfl
  · intro h
    rw [replace_section, h, if_pos rfl]
    rfl
  · intro err h
    by_cases hb : begin_marker = []
    · subst hb
      rw [replace_section, isSubstring_nil_left, if_neg (by simp), if_pos rfl]
      rfl
    · rw [pyCount, if_neg hb] at h
      have hsub := isSubstring_of_pyCountNe_pos begin_marker hb text (by omega)
      have hlen := pySplit_length begin_marker text hb
      cases hsp : pySplit begin_marker text with
      | nil => exact absurd hsp (pySplit_ne_nil begin_marker text)
      | cons x xs =>
        cases xs with
        | nil =>
          rw [hsp] at hlen
          simp only [List.length_cons, List.length_nil] at hlen
          omega
        | cons y ys =>
          cases ys with
          | nil =>
            rw [hsp] at hlen
            simp only [List.length_cons, List.length_nil] at hlen
            omega
          | cons z zs =>
            rw [replace_section, hsub, if_neg (by simp), if_neg hb, hsp]
            simp [isErrorE]
  · intro err b r hsp hcnt
    have hbne : begin_marker ≠ [] := by
      intro hb0
      subst hb0
      rw [pySplit_nil_sep] at hsp
      have hl := congrArg List.length hsp
      simp at hl
    have hlen := pySplit_length begin_marker text hbne
    rw [hsp] at hlen
    simp only [List.length_cons, List.length_nil] at hlen
    have hsub := isSubstring_of_pyCountNe_pos begin_marker hbne text (by omega)
    rw [replace_section, hsub, if_neg (by simp), if_neg hbne, hsp]
    by_cases he : end_marker = []
    · subst he
      simp [isErrorE]
    · rw [pyCount, if_neg he] at hcnt
      have hlen2 := pySplit_length end_marker r he
      cases hsp2 : pySplit end_marker r with
      | nil => exact absurd hsp2 (pySplit_ne_nil end_marker r)
      | cons x xs =>
        cases xs with
        | nil => simp [isErrorE, he, hsp2]
        | cons y ys =>
          cases ys with
          | nil =>
            rw [hsp2] at hlen2
            simp only [List.length_cons, List.length_nil] at hlen2
            omega
          | cons z zs => simp [isErrorE, he, hsp2]

/-- C5 witness: the four failure clauses at concrete inputs (missing marker
with and without `error_if_missing`; a doubled begin marker; an end marker
absent from the after-region). -/
theorem replace_section_failure_modes_witness :
    replace_section (str "hello") (str "x") (str "y") (str "Z") false true
      = .error .runtimeError
    ∧ replace_section (str "hello") (str "x") (str "y") (str "Z") false false
      = .ok (str "hello")
    ∧ isErrorE (replace_section [' ', 'X', 'b', 'X', 'c'] ['X'] (str "y") (str "Z")
        false true) = true
    ∧ isErrorE (replace_section [' ', 'X', 'b'] ['X'] ['q'] (str "Z") false true)
      = true := by
  refine ⟨?_, ?_, ?_, ?_⟩
  · exact (replace_section_failure_modes (str "hello") (str "x") (str "y") (str "Z")
      false).1 (by decide)
  · exact (replace_section_failure_modes (str "hello") (str "x") (str "y") (str "Z")
      false).2.1 (by decide)
  · exact (replace_section_failure_modes [' ', 'X', 'b', 'X', 'c'] ['X'] (str "y")
      (str "Z") false).2.2.1 true (by simp [pyCount, pyCountNe])
  · exact (replace_section_failure_modes [' ', 'X', 'b'] ['X'] ['q'] (str "Z")
      false).2.2.2 true [' '] ['b'] (by simp [pySplit]) (by simp [pyCount, pyCountNe])

/-! ### Claims about `replace_exact` (C2, C6) -/

/-- C2 (counterexample). The claim asserts that
`replace_exact("aaa", "a", "b", count=3)` raises; in fact `"aaa".count("a")`
is `3`, which equals the expected count, so the call succeeds and returns
`"bbb"`. -/
theorem replace_exact_aaa_count3_ok :
    replace_exact ['a', 'a', 'a'] ['a'] ['b'] 3 = .ok ['b', 'b', 'b']
    ∧ isErrorE (replace_exact ['a', 'a', 'a'] ['a'] ['b'] 3) = false := by
  have h : replace_exact ['a', 'a', 'a'] ['a'] ['b'] 3 = .ok ['b', 'b', 'b'] := by
    simp [replace_exact, pyCount, pyCountNe, pyReplace, pyReplaceNe]
  exact ⟨h, by rw [h]; rfl⟩

/-- C2 (amended). `replace_exact("aaa", "a", "b", count=3)` succeeds and
returns `"bbb"` (the found count 3 matches the expected count), and in
general a call whose `count` argument matches the actual number of
occurrences succeeds and replaces all occurrences. -/
theorem replace_exact_count_matches :
    replace_exact ['a', 'a', 'a'] ['a'] ['b'] 3 = .ok ['b', 'b', 'b']
    ∧ ∀ (opstr old new : List Char) (c : Nat), pyCount old opstr = c →
        replace_exact opstr old new c = .ok (pyReplace opstr old new) := by
  constructor
  · simp [replace_exact, pyCount, pyCountNe, pyReplace, pyReplaceNe]
  · intro opstr old new c h
    rw [replace_exact, if_neg (fun hne => hne h)]

/-- C2 witness for the general clause: a matching count of 1 succeeds. -/
theorem replace_exact_count_matches_witness :
    replace_exact ['x', 'y'] ['x'] ['z'] 1 = .ok (pyReplace ['x', 'y'] ['x'] ['z']) :=
  (replace_exact_count_matches).2 ['x', 'y'] ['x'] ['z'] 1 (by simp [pyCount, pyCountNe])

/-- C6. The `replace_exact` contract: the call raises exactly when the number
of occurrences of `old` differs from `count`; on a match it returns the text
with all occurrences of `old` replaced by `new` — structurally, for nonempty
`old` the text splits into `count + 1` chunks joined by `old`, and the result
joins those same chunks by `new`. -/
theorem replace_exact_contract (opstr old new : List Char) (c : Nat) :
    (pyCount old opstr ≠ c → replace_exact opstr old new c = .error .runtimeError)
    ∧ (pyCount old opstr = c →
        replace_exact opstr old new c = .ok (pyReplace opstr old new)
        ∧ (old ≠ [] →
            joinSep old (pySplit old opstr) = opstr
            ∧ pyReplace opstr old new = joinSep new (pySplit old opstr)
            ∧ (pySplit old opstr).length = c + 1)) := by
  constructor
  · intro h
    rw [replace_exact, if_pos h]
  · intro h
    refine ⟨?_, ?_⟩
    · rw [replace_exact, if_neg (fun hne => hne h)]
    · intro hold
      refine ⟨joinSep_pySplit old opstr, ?_, ?_⟩
      · rw [pyReplace, if_neg hold]
        exact pyReplaceNe_join old new opstr
      · rw [← h, pyCount, if_neg hold]
        exact pySplit_length old opstr hold

/-- C6 witness: a mismatched count raises; a matched count returns the text
with the single `"b"` replaced, decomposing `"aba"` into the chunks
`["a", "a"]` joined by the old/new strings. -/
theorem replace_exact_contract_witness :
    replace_exact ['a', 'b', 'a'] ['b'] ['c'] 2 = .error .runtimeError
    ∧ replace_exact ['a', 'b', 'a'] ['b'] ['c'] 1 = .ok (pyReplace ['a', 'b', 'a'] ['b'] ['c'])
    ∧ joinSep ['b'] (pySplit ['b'] ['a', 'b', 'a']) = ['a', 'b', 'a']
    ∧ (pySplit ['b'] ['a', 'b', 'a']).length = 2 := by
  have h1 := (replace_exact_contract ['a', 'b', 'a'] ['b'] ['c'] 2).1
    (by simp [pyCount, pyCountNe])
  have h2 := (replace_exact_contract ['a', 'b', 'a'] ['b'] ['c'] 1).2
    (by simp [pyCount, pyCountNe])
  exact ⟨h1, h2.1, (h2.2 (by decide)).1, (h2.2 (by decide)).2.2⟩

/-! ### Hashing model (C3, C8, C9)

`hashlib.md5()` / `hashlib.sha256()` are modelled by an abstract function
`digest : List Nat → List Nat`: an incremental hash object's `digest()` is a
pure function of the concatenation of all byte strings passed to `update`,
so the embedding accumulates that byte stream and applies `digest` once.
Theorems quantify over `digest`, i.e. they hold for every `hashtype`.
The file system is a function `fs` from a path to the file's bytes; the
chunked read loop in the source feeds exactly the file's bytes in order. -/

/-- The dynamic type of a caller-supplied Python value: `list`, `tuple` and
`str` are the ordered `Sequence` types, `int` is not a sequence. -/
inductive PyObj where
  | pylist : List (List Char) → PyObj
  | pytuple : List (List Char) → PyObj
  | pystr : List Char → PyObj
  | pyint : Int → PyObj
deriving DecidableEq

/-- `isinstance(x, list)`. -/
def isPyList : PyObj → Bool
  | .pylist _ => true
  | _ => false

/-- Whether the value is a proper ordered sequence type
(`collections.abc.Sequence`: `list`, `tuple`, `str`). -/
def isOrderedSequence : PyObj → Bool
  | .pylist _ => true
  | .pytuple _ => true
  | .pystr _ => true
  | .pyint _ => false

/-- UTF-8 bytes of one code point. -/
def utf8Bytes (c : Char) : List Nat :=
  if c.toNat < 128 then [c.toNat]
  else if c.toNat < 2048 then [192 + c.toNat / 64, 128 + c.toNat % 64]
  else if c.toNat < 65536 then
    [224 + c.toNat / 4096, 128 + c.toNat / 64 % 64, 128 + c.toNat % 64]
  else
    [240 + c.toNat / 262144, 128 + c.toNat / 4096 % 64, 128 + c.toNat / 64 % 64,
      128 + c.toNat % 64]

/-- `s.encode()`: the UTF-8 byte stream of a string. -/
def encodeUtf8 (s : List Char) : List Nat := (s.map utf8Bytes).flatten

/-- `int.from_bytes(bs, byteorder='big')`. -/
def fromBytesBE (bs : List Nat) : Nat := bs.foldl (fun acc b => acc * 256 + b) 0

/-- Little-endian base-`b` digits of `n` (empty for `n = 0`). -/
def natDigitsRevBase (b : Nat) (n : Nat) : List Nat :=
  if h : n = 0 ∨ b ≤ 1 then [] else n % b :: natDigitsRevBase b (n / b)
termination_by n
decreasing_by
· push_neg at h
  exact Nat.div_lt_self (Nat.pos_of_ne_zero h.1) h.2

/-- The character of a digit value (`0`-`9`, `a`-`f`). -/
def digitChar (d : Nat) : Char :=
  if d < 10 then Char.ofNat (48 + d) else Char.ofNat (87 + d)

/-- The base-`b` numeral of `n` (`'0'` for zero); base 10 is Python's
`str(n)` for a nonnegative integer. -/
def natToBaseString (b n : Nat) : List Char :=
  if n = 0 then ['0'] else ((natDigitsRevBase b n).reverse).map digitChar

/-- Python's `str(n)` for `n ≥ 0`. -/
def decString (n : Nat) : List Char := natToBaseString 10 n

/-- One digest byte, rendered as two lowercase hex digits (`'%02x'`). -/
def byteHex (b : Nat) : List Char := [digitChar (b / 16), digitChar (b % 16)]

/-- `hashobj.hexdigest()`: the digest bytes as a lowercase hex string. -/
def hexString (bs : List Nat) : List Char := (bs.map byteHex).flatten

/-- Embedding of `get_files_hash(filenames, extrahash, int_only, hashtype)`.

Python source:
```
if not isinstance(filenames, list):
    raise RuntimeError(f'Expected a list; got a {type(filenames)}.')
hashobj = getattr(hashlib, hashtype)()
for fname in filenames:
    with open(fname, 'rb') as infile:
        while True:
            data = infile.read(2**20)
            if not data:
                break
            hashobj.update(data)
hashobj.update(extrahash.encode())
if int_only:
    return str(int.from_bytes(hashobj.digest(), byteorder='big'))
return hashobj.hexdigest()
```
-/
def get_files_hash (digest : List Nat → List Nat) (fs : List Char → List Nat)
    (filenames : PyObj) (extrahash : List Char) (int_only : Bool) :
    Except PyErr (List Char) :=
  match filenames with
  | .pylist fnames =>
    let hashbytes := (fnames.map fs).flatten ++ encodeUtf8 extrahash
    if int_only then .ok (decString (fromBytesBE (digest hashbytes)))
    else .ok (hexString (digest hashbytes))
  | _ => .error .runtimeError

/-- Embedding of `get_string_hash(value, int_only, hashtype)`.

Python source:
```
if not isinstance(value, str):
    raise TypeError('Expected a str.')
hashobj = getattr(hashlib, hashtype)()
hashobj.update(value.encode())
if int_only:
    return str(int.from_bytes(hashobj.digest(), byteorder='big'))
return hashobj.hexdigest()
```
-/
def get_string_hash (digest : List Nat → List Nat) (value : PyObj) (int_only : Bool) :
    Except PyErr (List Char) :=
  match value with
  | .pystr s =>
    let hashbytes := encodeUtf8 s
    if int_only then .ok (decString (fromBytesBE (digest hashbytes)))
    else .ok (hexString (digest hashbytes))
  | _ => .error .typeError

/-- Spec-side: the value of a decimal/hex digit character. -/
def digitVal (c : Char) : Nat :=
  if 48 ≤ c.toNat ∧ c.toNat ≤ 57 then c.toNat - 48
  else if 97 ≤ c.toNat ∧ c.toNat ≤ 102 then c.toNat - 87
  else 0

/-- Spec-side: read a string as a base-`b` integer. -/
def parseBase (b : Nat) (s : List Char) : Nat :=
  s.foldl (fun acc c => acc * b + digitVal c) 0

theorem digitVal_digitChar (d : Nat) (h : d < 16) : digitVal (digitChar d) = d := by
  interval_cases d <;> decide

theorem parse_digitsRev (b : Nat) (hb2 : 2 ≤ b) (hb16 : b ≤ 16) :
    ∀ n, parseBase b (((natDigitsRevBase b n).reverse).map digitChar) = n := by
  intro n
  induction n using Nat.strong_induction_on with
  | _ n ih =>
    by_cases h0 : n = 0
    · subst h0
      rw [natDigitsRevBase, dif_pos (Or.inl rfl)]
      rfl
    · rw [natDigitsRevBase, dif_neg (by omega)]
      rw [List.reverse_cons, List.map_append, parseBase, List.foldl_append]
      have hrec := ih (n / b) (Nat.div_lt_self (Nat.pos_of_ne_zero h0) (by omega))
      rw [parseBase] at hrec
      rw [hrec]
      simp only [List.map_cons, List.map_nil, List.foldl_cons, List.foldl_nil]
      have hmod : n % b < b := Nat.mod_lt n (by omega)
      rw [digitVal_digitChar (n % b) (by omega)]
      have hdm := Nat.div_add_mod n b
      calc n / b * b + n % b = b * (n / b) + n % b := by rw [Nat.mul_comm]
        _ = n := hdm

/-- Reading back the base-`b` numeral of `n` gives `n` (`2 ≤ b ≤ 16`). -/
theorem parse_natToBaseString (b : Nat) (hb2 : 2 ≤ b) (hb16 : b ≤ 16) (n : Nat) :
    parseBase b (natToBaseString b n) = n := by
  rw [natToBaseString]
  by_cases h0 : n = 0
  · subst h0
    rw [if_pos rfl]
    simp [parseBase, digitVal]
  · rw [if_neg h0]
    exact parse_digitsRev b hb2 hb16 n

theorem foldl_hex : ∀ (bs : List Nat), (∀ x ∈ bs, x < 256) →
    ∀ a, List.foldl (fun acc c => acc * 16 + digitVal c) a ((bs.map byteHex).flatten)
      = List.foldl (fun acc x => acc * 256 + x) a bs := by
  intro bs
  induction bs with
  | nil => intro _ a; rfl
  | cons x rest ih =>
    intro hall a
    have hx : x < 256 := hall x (by simp)
    have hrest : ∀ y ∈ rest, y < 256 := fun y hy => hall y (by simp [hy])
    simp only [List.map_cons, List.flatten_cons, List.foldl_append]
    rw [show byteHex x = [digitChar (x / 16), digitChar (x % 16)] from rfl]
    simp only [List.foldl_cons, List.foldl_nil]
    rw [digitVal_digitChar (x / 16) (by omega), digitVal_digitChar (x % 16) (by omega)]
    have harg : (a * 16 + x / 16) * 16 + x % 16 = a * 256 + x := by omega
    rw [harg, ih hrest]

/-- Reading the hex digest back as a base-16 integer gives the big-endian
integer encoding of the digest bytes. -/
theorem parse_hexString (bs : List Nat) (h : ∀ x ∈ bs, x < 256) :
    parseBase 16 (hexString bs) = fromBytesBE bs := by
  rw [parseBase, hexString, fromBytesBE]
  exact foldl_hex bs h 0

/-! ### Claims about the hashing functions (C3, C8, C9) -/

/-- C3 (counterexample). A tuple is a proper ordered sequence type, yet
`get_files_hash` raises its input-type error on it: only `list` passes the
`isinstance(filenames, list)` check. -/
theorem get_files_hash_rejects_tuple :
    isOrderedSequence (PyObj.pytuple [str "f"]) = true
    ∧ isErrorE (get_files_hash (fun bs => bs) (fun _ => []) (PyObj.pytuple [str "f"])
        [] false) = true :=
  ⟨rfl, rfl⟩

/-- C3 (amended). `get_files_hash` raises its input-type error exactly when
the `filenames` input is not a Python `list`; ordered sequence types other
than `list` (tuples, strings) are rejected too, and every `list` of paths
passes the check and is hashed (for every hash function and file system). -/
theorem get_files_hash_list_only (digest : List Nat → List Nat)
    (fs : List Char → List Nat) (x : PyObj) (extrahash : List Char) (int_only : Bool) :
    isErrorE (get_files_hash digest fs x extrahash int_only) = !(isPyList x) := by
  cases x <;> cases int_only <;> simp [get_files_hash, isPyList, isErrorE]

/-- C8. Hashing an empty file list plus `extrahash` equals hashing the
string `extrahash` alone, for every hash function (`hashtype`) and `int_only`
flag. -/
theorem get_files_hash_empty_eq_string_hash (digest : List Nat → List Nat)
    (fs : List Char → List Nat) (extrahash : List Char) (int_only : Bool) :
    get_files_hash digest fs (PyObj.pylist []) extrahash int_only
      = get_string_hash digest (PyObj.pystr extrahash) int_only := by
  cases int_only <;> simp [get_files_hash, get_string_hash]

/-- C9. For every string and hash function whose digest is a byte list, the
`int_only=True` output parsed as a decimal integer equals the hex digest
parsed as a base-16 integer, and both equal the big-endian integer encoding
of the raw digest bytes. -/
theorem get_string_hash_int_matches_hex (digest : List Nat → List Nat)
    (value : List Char)
    (hbytes : ∀ x ∈ digest (encodeUtf8 value), x < 256) :
    ∃ ds hs,
      get_string_hash digest (PyObj.pystr value) true = .ok ds
      ∧ get_string_hash digest (PyObj.pystr value) false = .ok hs
      ∧ parseBase 10 ds = fromBytesBE (digest (encodeUtf8 value))
      ∧ parseBase 16 hs = fromBytesBE (digest (encodeUtf8 value))
      ∧ parseBase 10 ds = parseBase 16 hs := by
  refine ⟨decString (fromBytesBE (digest (encodeUtf8 value))),
    hexString (digest (encodeUtf8 value)), rfl, rfl, ?_, ?_, ?_⟩
  · exact parse_natToBaseString 10 (by omega) (by omega) _
  · exact parse_hexString _ hbytes
  · rw [decString, parse_natToBaseString 10 (by omega) (by omega),
      parse_hexString _ hbytes]

/-- C9 witness: a concrete digest function returning the bytes
`[171, 0, 255]` (hex `ab00ff`, decimal `11206911`). -/
theorem get_string_hash_int_matches_hex_witness :
    ∃ ds hs,
      get_string_hash (fun _ => [171, 0, 255]) (PyObj.pystr (str "ok")) true = .ok ds
      ∧ get_string_hash (fun _ => [171, 0, 255]) (PyObj.pystr (str "ok")) false = .ok hs
      ∧ parseBase 10 ds = fromBytesBE [171, 0, 255]
      ∧ parseBase 16 hs = fromBytesBE [171, 0, 255]
      ∧ parseBase 10 ds = parseBase 16 hs :=
  get_string_hash_int_matches_hex (fun _ => [171, 0, 255]) (str "ok") (by decide)
